import Mathlib

/-!
Verification of the Kafka client consumption-pipeline documentation of
`jescrich/libraries`.  The data model and operations below are shallow
embeddings of the TypeScript shown in `src/docs/kafka/*.md`
(`BackpressureController`, `AdaptiveBackpressureController`,
`CircuitBreakerProducer`, the DLQ `retryDelay` policy, key-grouped batch
dispatch, the idempotency filter, the batch aggregator and the failure
router).  Where the documentation gives only a behavioural description and
no executable snippet, the definition is modelled from the spec and says so
in its doc comment.
-/

namespace KafkaClient

/-! ## Backpressure controller (best-practices.md, `BackpressureController`) -/

/-- State of `BackpressureController`: `activeBatches` counter and the
`isPaused` flag.  `activeBatches` is an integer because the TypeScript
decrements without a guard. -/
structure BPState where
  activeBatches : ℤ
  isPaused : Bool
deriving DecidableEq, Repr

/-- The externally visible side effects of the controller:
`consumer.pause()` and `consumer.resume()`. -/
inductive BPEv where
  | pause
  | resume
deriving DecidableEq, Repr

/-- The two entry points of the controller. -/
inductive BPCall where
  | before
  | after
deriving DecidableEq, Repr

/-- `utilizationPercent = (activeBatches / maxConcurrency) * 100`. -/
def utilization (maxConcurrency : ℚ) (active : ℤ) : ℚ :=
  ((active : ℚ) / maxConcurrency) * 100

/-- `BackpressureController.beforeBatchProcessing`: increment
`activeBatches`; if utilization reached `threshold` and not already paused,
call `consumer.pause()` and set `isPaused`. -/
def beforeBatchProcessing (maxConcurrency threshold : ℚ) (s : BPState) :
    BPState × List BPEv :=
  let a := s.activeBatches + 1
  if utilization maxConcurrency a ≥ threshold ∧ s.isPaused = false then
    (⟨a, true⟩, [BPEv.pause])
  else
    (⟨a, s.isPaused⟩, [])

/-- `BackpressureController.afterBatchProcessing`: decrement
`activeBatches`; if utilization fell to `threshold * 0.6` and currently
paused, call `consumer.resume()` and clear `isPaused`. -/
def afterBatchProcessing (maxConcurrency threshold : ℚ) (s : BPState) :
    BPState × List BPEv :=
  let a := s.activeBatches - 1
  if utilization maxConcurrency a ≤ threshold * (6 / 10) ∧ s.isPaused = true then
    (⟨a, false⟩, [BPEv.resume])
  else
    (⟨a, s.isPaused⟩, [])

/-- One call to the controller. -/
def bpStep (maxConcurrency threshold : ℚ) (s : BPState) :
    BPCall → BPState × List BPEv
  | BPCall.before => beforeBatchProcessing maxConcurrency threshold s
  | BPCall.after => afterBatchProcessing maxConcurrency threshold s

/-- Run a sequence of `beforeBatchProcessing` / `afterBatchProcessing`
calls, collecting the emitted pause/resume side effects in order. -/
def bpRun (maxConcurrency threshold : ℚ) :
    BPState → List BPCall → BPState × List BPEv
  | s, [] => (s, [])
  | s, c :: cs =>
      let p := bpStep maxConcurrency threshold s c
      let q := bpRun maxConcurrency threshold p.1 cs
      (q.1, p.2 ++ q.2)

/-- A state is reachable when some call sequence leads to it from the
initial state `activeBatches = 0`, `isPaused = false`. -/
def bpInit : BPState := ⟨0, false⟩

def BPReachable (maxConcurrency threshold : ℚ) (s : BPState) : Prop :=
  ∃ cs : List BPCall, (bpRun maxConcurrency threshold bpInit cs).1 = s

/-- A pause/resume event list strictly alternates, starting from paused
state `b`: a `pause` may occur only when not paused, a `resume` only when
paused. -/
def altFrom : Bool → List BPEv → Prop
  | _, [] => True
  | b, BPEv.pause :: es => b = false ∧ altFrom true es
  | b, BPEv.resume :: es => b = true ∧ altFrom false es

/-- Each controller call emits at most one event, and the emitted event
matches the pause-flag transition: `pause` only from unpaused to paused,
`resume` only from paused to unpaused; no event means the flag is
unchanged. -/
lemma bpStep_cases (maxConcurrency threshold : ℚ) (s : BPState) (c : BPCall) :
    ((bpStep maxConcurrency threshold s c).2 = [] ∧
      (bpStep maxConcurrency threshold s c).1.isPaused = s.isPaused) ∨
    ((bpStep maxConcurrency threshold s c).2 = [BPEv.pause] ∧
      s.isPaused = false ∧
      (bpStep maxConcurrency threshold s c).1.isPaused = true) ∨
    ((bpStep maxConcurrency threshold s c).2 = [BPEv.resume] ∧
      s.isPaused = true ∧
      (bpStep maxConcurrency threshold s c).1.isPaused = false) := by
  cases c <;>
    simp only [bpStep, beforeBatchProcessing, afterBatchProcessing] <;>
    split <;> simp_all

/-- A `resume` event is emitted only from a paused state, and only when the
post-call utilization is at most `threshold * 0.6`; a `pause` only from an
unpaused state with utilization at least `threshold`. -/
lemma bpStep_guards (maxConcurrency threshold : ℚ) (s : BPState) (c : BPCall) :
    (BPEv.resume ∈ (bpStep maxConcurrency threshold s c).2 →
      s.isPaused = true ∧
      utilization maxConcurrency (bpStep maxConcurrency threshold s c).1.activeBatches ≤
        threshold * (6 / 10)) ∧
    (BPEv.pause ∈ (bpStep maxConcurrency threshold s c).2 →
      s.isPaused = false ∧
      utilization maxConcurrency (bpStep maxConcurrency threshold s c).1.activeBatches ≥
        threshold) := by
  cases c <;>
    simp only [bpStep, beforeBatchProcessing, afterBatchProcessing] <;>
    split <;> simp_all

lemma altFrom_run (maxConcurrency threshold : ℚ) (s : BPState)
    (cs : List BPCall) :
    altFrom s.isPaused (bpRun maxConcurrency threshold s cs).2 := by
  induction cs generalizing s with
  | nil => simp [bpRun, altFrom]
  | cons c cs ih =>
      simp only [bpRun]
      rcases bpStep_cases maxConcurrency threshold s c with
        ⟨he, hp⟩ | ⟨he, hp, hp'⟩ | ⟨he, hp, hp'⟩
      · rw [he, List.nil_append, ← hp]
        exact ih _
      · rw [he, hp]
        exact ⟨rfl, hp' ▸ ih _⟩
      · rw [he, hp]
        exact ⟨rfl, hp' ▸ ih _⟩

/-- C3: in every reachable state of the backpressure controller, a call
that emits `resume` does so only from a paused state and only when the
utilization ratio after the call is at most `pauseThreshold × 0.6`
(48 at the default `threshold = 80`); a call that emits `pause` does so
only from an unpaused state at utilization at least `pauseThreshold`; and
a call that clears the paused flag leaves the ratio at most
`pauseThreshold × 0.6`. -/
theorem backpressure_hysteresis (maxConcurrency threshold : ℚ) (s : BPState)
    (hs : BPReachable maxConcurrency threshold s) (c : BPCall) :
    (BPEv.resume ∈ (bpStep maxConcurrency threshold s c).2 →
      s.isPaused = true ∧
      utilization maxConcurrency (bpStep maxConcurrency threshold s c).1.activeBatches ≤
        threshold * (6 / 10)) ∧
    (BPEv.pause ∈ (bpStep maxConcurrency threshold s c).2 →
      s.isPaused = false ∧
      utilization maxConcurrency (bpStep maxConcurrency threshold s c).1.activeBatches ≥
        threshold) ∧
    (s.isPaused = true → (bpStep maxConcurrency threshold s c).1.isPaused = false →
      utilization maxConcurrency (bpStep maxConcurrency threshold s c).1.activeBatches ≤
        threshold * (6 / 10)) ∧
    (threshold = 80 →
      BPEv.resume ∈ (bpStep maxConcurrency threshold s c).2 →
      utilization maxConcurrency (bpStep maxConcurrency threshold s c).1.activeBatches ≤ 48) := by
  obtain ⟨hres, hpau⟩ := bpStep_guards maxConcurrency threshold s c
  refine ⟨hres, hpau, ?_, ?_⟩
  · intro hp hp'
    rcases bpStep_cases maxConcurrency threshold s c with
      ⟨_, he⟩ | ⟨_, he, _⟩ | ⟨he, _, _⟩
    · rw [hp] at he; rw [he] at hp'; exact absurd hp' (by simp)
    · rw [he] at hp; exact absurd hp (by simp)
    · exact (hres (by rw [he]; exact List.mem_singleton.mpr rfl)).2
  · intro ht hmem
    subst ht
    have h := (hres hmem).2
    calc utilization maxConcurrency (bpStep maxConcurrency 80 s c).1.activeBatches
        ≤ 80 * (6 / 10) := h
      _ = 48 := by norm_num

/-- Witness for `backpressure_hysteresis`: with `maxConcurrency = 1`,
`threshold = 80`, the state `⟨1, true⟩` is reached by one
`beforeBatchProcessing` call, and the following `afterBatchProcessing`
call emits `resume` at utilization `0 ≤ 48`. -/
theorem backpressure_hysteresis_witness :
    BPReachable 1 80 ⟨1, true⟩ ∧
    (BPEv.resume ∈ (bpStep 1 80 ⟨1, true⟩ BPCall.after).2 →
      (⟨1, true⟩ : BPState).isPaused = true ∧
      utilization 1 (bpStep 1 80 ⟨1, true⟩ BPCall.after).1.activeBatches ≤ 80 * (6 / 10)) := by
  have hreach : BPReachable 1 80 ⟨1, true⟩ := by
    refine ⟨[BPCall.before], ?_⟩
    norm_num [bpRun, bpStep, beforeBatchProcessing, bpInit, utilization]
  exact ⟨hreach, (backpressure_hysteresis 1 80 ⟨1, true⟩ hreach BPCall.after).1⟩

/-- C10: the pause and resume side effects of the backpressure controller
strictly alternate over every interleaving of `beforeBatchProcessing` and
`afterBatchProcessing` calls from the initial unpaused state: a `pause` is
emitted only when `isPaused` is `false` (and sets it), a `resume` only when
`isPaused` is `true` (and clears it), so no two `pause`s occur without an
intervening `resume` and vice versa. -/
theorem backpressure_pause_resume_alternate (maxConcurrency threshold : ℚ)
    (cs : List BPCall) :
    altFrom false (bpRun maxConcurrency threshold bpInit cs).2 :=
  altFrom_run maxConcurrency threshold bpInit cs

/-! ## Adaptive backpressure (best-practices.md,
`AdaptiveBackpressureController.adjustConcurrency`) -/

/-- The mutable fields touched by `adjustConcurrency`. -/
structure AdaptState where
  currentConcurrency : ℤ
  threshold : ℤ
deriving DecidableEq, Repr

/-- Direction argument of `adjustConcurrency`. -/
inductive Direction where
  | increase
  | decrease
deriving DecidableEq, Repr

/-- `AdaptiveBackpressureController.adjustConcurrency`: on `decrease`,
`currentConcurrency := Math.max(1, currentConcurrency - 1)` and
`threshold := Math.max(50, threshold - 10)`; on `increase`,
`currentConcurrency := Math.min(maxConcurrency, currentConcurrency + 1)`
and `threshold := Math.min(90, threshold + 5)`. -/
def adjustConcurrency (maxConcurrency : ℤ) (s : AdaptState) :
    Direction → AdaptState
  | Direction.decrease =>
      ⟨max 1 (s.currentConcurrency - 1), max 50 (s.threshold - 10)⟩
  | Direction.increase =>
      ⟨min maxConcurrency (s.currentConcurrency + 1), min 90 (s.threshold + 5)⟩

/-- Fold a sequence of adjustment directions over the state. -/
def adjustRun (maxConcurrency : ℤ) : AdaptState → List Direction → AdaptState
  | s, [] => s
  | s, d :: ds => adjustRun maxConcurrency (adjustConcurrency maxConcurrency s d) ds

lemma adjustConcurrency_bounds (maxConcurrency : ℤ) (s : AdaptState)
    (hmax : 1 ≤ maxConcurrency)
    (h1 : 1 ≤ s.currentConcurrency) (h2 : s.currentConcurrency ≤ maxConcurrency)
    (d : Direction) :
    1 ≤ (adjustConcurrency maxConcurrency s d).currentConcurrency ∧
      (adjustConcurrency maxConcurrency s d).currentConcurrency ≤ maxConcurrency := by
  cases d <;> simp only [adjustConcurrency] <;> omega

/-- C9: for every sequence of adaptive adjustments, the effective
concurrency limit stays within `[1, maxConcurrency]`: a `decrease` step
sets it to `max 1 (c - 1)`, an `increase` step to
`min maxConcurrency (c + 1)`, so no adjustment sequence drives the limit
to zero or above the configured maximum; and the steps are asymmetric —
a `decrease` moves the pause threshold down by 10 points (floored at 50)
while an `increase` moves it up by only 5 points (capped at 90). -/
theorem adaptive_concurrency_bounded (maxConcurrency : ℤ) (s : AdaptState)
    (hmax : 1 ≤ maxConcurrency)
    (h1 : 1 ≤ s.currentConcurrency) (h2 : s.currentConcurrency ≤ maxConcurrency)
    (ds : List Direction) :
    (1 ≤ (adjustRun maxConcurrency s ds).currentConcurrency ∧
      (adjustRun maxConcurrency s ds).currentConcurrency ≤ maxConcurrency) ∧
    (∀ t : AdaptState,
      (adjustConcurrency maxConcurrency t Direction.decrease).threshold =
        max 50 (t.threshold - 10) ∧
      (adjustConcurrency maxConcurrency t Direction.increase).threshold =
        min 90 (t.threshold + 5) ∧
      (60 ≤ t.threshold →
        (adjustConcurrency maxConcurrency t Direction.decrease).threshold =
          t.threshold - 10) ∧
      (t.threshold ≤ 85 →
        (adjustConcurrency maxConcurrency t Direction.increase).threshold =
          t.threshold + 5)) := by
  constructor
  · induction ds generalizing s with
    | nil => exact ⟨h1, h2⟩
    | cons d ds ih =>
        obtain ⟨g1, g2⟩ := adjustConcurrency_bounds maxConcurrency s hmax h1 h2 d
        exact ih _ g1 g2
  · intro t
    refine ⟨rfl, rfl, ?_, ?_⟩ <;> intro h <;> simp only [adjustConcurrency] <;> omega

/-- Witness for `adaptive_concurrency_bounded` at `maxConcurrency = 3`,
start state `⟨3, 80⟩`, and a decrease/decrease/increase sequence. -/
theorem adaptive_concurrency_bounded_witness :
    (1 ≤ (adjustRun 3 ⟨3, 80⟩
        [Direction.decrease, Direction.decrease, Direction.increase]).currentConcurrency ∧
      (adjustRun 3 ⟨3, 80⟩
        [Direction.decrease, Direction.decrease, Direction.increase]).currentConcurrency ≤ 3) ∧
    (∀ t : AdaptState,
      (adjustConcurrency 3 t Direction.decrease).threshold = max 50 (t.threshold - 10) ∧
      (adjustConcurrency 3 t Direction.increase).threshold = min 90 (t.threshold + 5) ∧
      (60 ≤ t.threshold →
        (adjustConcurrency 3 t Direction.decrease).threshold = t.threshold - 10) ∧
      (t.threshold ≤ 85 →
        (adjustConcurrency 3 t Direction.increase).threshold = t.threshold + 5)) :=
  adaptive_concurrency_bounded 3 ⟨3, 80⟩ (by decide) (by decide) (by decide)
    [Direction.decrease, Direction.decrease, Direction.increase]

/-! ## Producer circuit breaker (best-practices.md, `CircuitBreakerProducer`) -/

/-- `circuitState: 'CLOSED' | 'OPEN' | 'HALF_OPEN'`. -/
inductive CircState where
  | closed
  | opened
  | halfOpen
deriving DecidableEq, Repr

/-- Mutable fields of `CircuitBreakerProducer`. -/
structure CBState where
  failureCount : ℕ
  circuitState : CircState
  lastFailureTime : ℕ
deriving DecidableEq, Repr

/-- Result of one `send` call. -/
inductive SendOutcome where
  | fastFail
  | success
  | sendFailure
deriving DecidableEq, Repr

/-- `CircuitBreakerProducer.send`, at time `now`, where `netOk` tells
whether the underlying `producer.send` network call would succeed.  The
returned `Bool` records whether a network call was made.  While `OPEN` and
within `resetTimeout` of the last failure it throws without calling the
network; once `resetTimeout` has elapsed it moves to `HALF_OPEN` and
attempts the send; success resets `failureCount` and closes a half-open
circuit; failure increments `failureCount`, stamps `lastFailureTime`, and
opens the circuit when the count reaches `failureThreshold`. -/
def cbSend (failureThreshold resetTimeout now : ℕ) (netOk : Bool) (s : CBState) :
    CBState × SendOutcome × Bool :=
  if s.circuitState = CircState.opened ∧ now - s.lastFailureTime < resetTimeout then
    (s, SendOutcome.fastFail, false)
  else
    let s1 : CBState :=
      if s.circuitState = CircState.opened then
        { s with circuitState := CircState.halfOpen }
      else s
    if netOk then
      ({ s1 with
          failureCount := 0,
          circuitState :=
            if s1.circuitState = CircState.halfOpen then CircState.closed
            else s1.circuitState },
        SendOutcome.success, true)
    else
      ({ failureCount := s1.failureCount + 1,
         circuitState :=
           if failureThreshold ≤ s1.failureCount + 1 then CircState.opened
           else s1.circuitState,
         lastFailureTime := now },
        SendOutcome.sendFailure, true)

/-- Initial producer state: no failures, circuit `CLOSED`. -/
def cbInit : CBState := ⟨0, CircState.closed, 0⟩

/-- Run a sequence of sends, each given as `(time, network success)`. -/
def cbRun (failureThreshold resetTimeout : ℕ) :
    CBState → List (ℕ × Bool) → CBState
  | s, [] => s
  | s, (t, ok) :: is =>
      cbRun failureThreshold resetTimeout
        ((cbSend failureThreshold resetTimeout t ok s).1) is

def CBReachable (failureThreshold resetTimeout : ℕ) (s : CBState) : Prop :=
  ∃ is : List (ℕ × Bool), cbRun failureThreshold resetTimeout cbInit is = s

/-- While the circuit is `OPEN`, `failureCount` is at least the threshold:
preserved by every send. -/
lemma cbSend_count_inv (failureThreshold resetTimeout now : ℕ) (netOk : Bool)
    (s : CBState)
    (h : s.circuitState = CircState.opened → failureThreshold ≤ s.failureCount) :
    (cbSend failureThreshold resetTimeout now netOk s).1.circuitState = CircState.opened →
      failureThreshold ≤ (cbSend failureThreshold resetTimeout now netOk s).1.failureCount := by
  simp only [cbSend]
  split
  · exact h
  · split <;> split <;> split <;> simp_all

lemma cbRun_count_inv (failureThreshold resetTimeout : ℕ) :
    ∀ (is : List (ℕ × Bool)) (s : CBState),
    (s.circuitState = CircState.opened → failureThreshold ≤ s.failureCount) →
    ((cbRun failureThreshold resetTimeout s is).circuitState = CircState.opened →
      failureThreshold ≤ (cbRun failureThreshold resetTimeout s is).failureCount)
  | [], _, h => h
  | (t, ok) :: is, s, h =>
      cbRun_count_inv failureThreshold resetTimeout is _
        (cbSend_count_inv failureThreshold resetTimeout t ok s h)

/-- A failing send in a non-`OPEN` state increments the count, stamps the
failure time, and opens the circuit exactly when the count reaches the
threshold. -/
lemma cbSend_fail_notOpen (failureThreshold resetTimeout now : ℕ) (s : CBState)
    (h : s.circuitState ≠ CircState.opened) :
    (cbSend failureThreshold resetTimeout now false s).1 =
      ⟨s.failureCount + 1,
        if failureThreshold ≤ s.failureCount + 1 then CircState.opened
        else s.circuitState, now⟩ := by
  simp only [cbSend]
  rw [if_neg (by simp [h]), if_neg h]
  simp

/-- `failureThreshold` consecutive failing sends from a closed state with
count `c` (where `c + n = failureThreshold`) leave the circuit `OPEN` with
`failureCount = failureThreshold`. -/
lemma cbRun_consecutive_failures (failureThreshold resetTimeout : ℕ) :
    ∀ (ts : List ℕ) (s : CBState),
    s.circuitState = CircState.closed →
    s.failureCount + ts.length = failureThreshold → ts ≠ [] →
    (cbRun failureThreshold resetTimeout s
        (ts.map (fun t => (t, false)))).circuitState = CircState.opened ∧
    (cbRun failureThreshold resetTimeout s
        (ts.map (fun t => (t, false)))).failureCount = failureThreshold := by
  intro ts
  induction ts with
  | nil => intro s _ _ hne; exact absurd rfl hne
  | cons t ts ih =>
      intro s hcl hcount _
      have hnotOpen : s.circuitState ≠ CircState.opened := by
        rw [hcl]; intro hc; cases hc
      simp only [List.map_cons, cbRun]
      rw [cbSend_fail_notOpen failureThreshold resetTimeout t s hnotOpen]
      rcases List.eq_nil_or_concat ts with hnil | ⟨l, x, hconcat⟩
      · subst hnil
        simp only [List.length_cons, List.length_nil] at hcount
        have hthr : failureThreshold ≤ s.failureCount + 1 := by omega
        simp [cbRun, if_pos hthr]
        omega
      · have hlen : s.failureCount + 1 + ts.length = failureThreshold := by
          simp only [List.length_cons] at hcount; omega
        have hts : ts ≠ [] := by
          rw [hconcat]; simp
        have hlt : ¬ failureThreshold ≤ s.failureCount + 1 := by
          have : 1 ≤ ts.length := List.length_pos.mpr hts
          omega
        rw [if_neg hlt, hcl]
        exact ih ⟨s.failureCount + 1, CircState.closed, t⟩ rfl hlen hts

/-- An `OPEN` circuit within `resetTimeout` of the last failure rejects
every send fast, without a network call and without changing state. -/
lemma cbSend_open_fastFail (failureThreshold resetTimeout now : ℕ) (netOk : Bool)
    (s : CBState) (hop : s.circuitState = CircState.opened)
    (ht : now - s.lastFailureTime < resetTimeout) :
    cbSend failureThreshold resetTimeout now netOk s =
      (s, SendOutcome.fastFail, false) := by
  simp only [cbSend]
  rw [if_pos ⟨hop, ht⟩]

/-- C6: the circuit breaker (i) transitions `CLOSED → OPEN` after
`failureThreshold` consecutive send failures; (ii) while `OPEN` and within
`resetTimeout` of the last failure, every send fails fast with no network
call and no state change; (iii) once `resetTimeout` has elapsed, the next
send makes exactly one trial network call: success returns the circuit to
`CLOSED` and resets the count, failure reopens it, restarts the timeout at
`now`, and every subsequent send within `resetTimeout` again fails fast. -/
theorem circuit_breaker_transitions (failureThreshold resetTimeout : ℕ)
    (hthr : 1 ≤ failureThreshold) :
    (∀ ts : List ℕ, ts.length = failureThreshold →
      (cbRun failureThreshold resetTimeout cbInit
          (ts.map (fun t => (t, false)))).circuitState = CircState.opened ∧
      (cbRun failureThreshold resetTimeout cbInit
          (ts.map (fun t => (t, false)))).failureCount = failureThreshold) ∧
    (∀ (s : CBState) (now : ℕ) (netOk : Bool),
      s.circuitState = CircState.opened → now - s.lastFailureTime < resetTimeout →
      cbSend failureThreshold resetTimeout now netOk s =
        (s, SendOutcome.fastFail, false)) ∧
    (∀ (s : CBState) (now : ℕ), CBReachable failureThreshold resetTimeout s →
      s.circuitState = CircState.opened → resetTimeout ≤ now - s.lastFailureTime →
      ((cbSend failureThreshold resetTimeout now true s).2.2 = true ∧
        (cbSend failureThreshold resetTimeout now true s).1.circuitState =
          CircState.closed ∧
        (cbSend failureThreshold resetTimeout now true s).1.failureCount = 0) ∧
      ((cbSend failureThreshold resetTimeout now false s).2.2 = true ∧
        (cbSend failureThreshold resetTimeout now false s).1.circuitState =
          CircState.opened ∧
        (cbSend failureThreshold resetTimeout now false s).1.lastFailureTime = now ∧
        (∀ (now' : ℕ) (netOk : Bool), now' - now < resetTimeout →
          cbSend failureThreshold resetTimeout now' netOk
              (cbSend failureThreshold resetTimeout now false s).1 =
            ((cbSend failureThreshold resetTimeout now false s).1,
              SendOutcome.fastFail, false)))) := by
  refine ⟨?_, ?_, ?_⟩
  · intro ts hlen
    have hne : ts ≠ [] := by
      rintro rfl
      simp only [List.length_nil] at hlen
      omega
    exact cbRun_consecutive_failures failureThreshold resetTimeout ts cbInit rfl
      (by simpa [cbInit] using hlen) hne
  · intro s now netOk hop ht
    exact cbSend_open_fastFail failureThreshold resetTimeout now netOk s hop ht
  · intro s now hreach hop ht
    have hcount : failureThreshold ≤ s.failureCount := by
      obtain ⟨is, his⟩ := hreach
      have := cbRun_count_inv failureThreshold resetTimeout is cbInit
        (by intro h; cases h)
      rw [his] at this
      exact this hop
    have hnot : ¬ (s.circuitState = CircState.opened ∧
        now - s.lastFailureTime < resetTimeout) := by
      rintro ⟨_, hlt⟩; omega
    constructor
    · simp only [cbSend, if_neg hnot, if_pos hop]
      simp
    · refine ⟨?_, ?_, ?_, ?_⟩
      · simp only [cbSend, if_neg hnot, if_pos hop]
        simp
      · simp only [cbSend, if_neg hnot, if_pos hop]
        simp only [Bool.false_eq_true, if_false]
        simp [Nat.le_succ_of_le hcount]
      · simp only [cbSend, if_neg hnot, if_pos hop]
        simp
      · intro now' netOk hlt
        have hop' : (cbSend failureThreshold resetTimeout now false s).1.circuitState =
            CircState.opened := by
          simp only [cbSend, if_neg hnot, if_pos hop]
          simp only [Bool.false_eq_true, if_false]
          simp [Nat.le_succ_of_le hcount]
        have htime : (cbSend failureThreshold resetTimeout now false s).1.lastFailureTime =
            now := by
          simp only [cbSend, if_neg hnot, if_pos hop]
          simp
        exact cbSend_open_fastFail failureThreshold resetTimeout now' netOk _ hop'
          (by rw [htime]; exact hlt)

/-- Witness for `circuit_breaker_transitions` at the documented defaults
`failureThreshold = 5`, `resetTimeout = 60000`: five consecutive failures
at times 0..4 open the circuit with count 5. -/
theorem circuit_breaker_transitions_witness :
    (1 : ℕ) ≤ 5 ∧
    ((cbRun 5 60000 cbInit
        ([0, 1, 2, 3, 4].map (fun t => (t, false)))).circuitState = CircState.opened ∧
      (cbRun 5 60000 cbInit
        ([0, 1, 2, 3, 4].map (fun t => (t, false)))).failureCount = 5) :=
  ⟨by decide,
    (circuit_breaker_transitions 5 60000 (by decide)).1 [0, 1, 2, 3, 4] (by decide)⟩

/-! ## Failure router: retry with backoff, then DLQ (advanced-features.md,
best-practices.md `dlq` configuration) -/

/-- The DLQ retry-delay policy shown in the docs:
`retryDelay: (attempt) => Math.min(1000 * Math.pow(2, attempt), 30000)`. -/
def retryDelay (attempt : ℕ) : ℕ :=
  min (1000 * 2 ^ attempt) 30000

/-- Stated from the spec for comparison: exponential backoff
`base × 2^attempt`, capped at `maxBackoff`. -/
def backoffSpec (base maxBackoff attempt : ℕ) : ℕ :=
  min (base * 2 ^ attempt) maxBackoff

/-- Error classes relevant to the default retry policy. -/
inductive ErrClass where
  | validation
  | transient
deriving DecidableEq, Repr

/-- Modelled from the spec: the default `shouldRetry` classification —
transient/network-class errors are retried, validation-class errors are
never retried (the docs' example returns `false` for `VALIDATION_ERROR`
and `true` for temporary errors). -/
def shouldRetryDefault : ErrClass → Bool
  | ErrClass.validation => false
  | ErrClass.transient => true

/-- The headers carried to the dead-letter destination:
`{failureReason, attemptCount}` where `attemptCount` counts the retries
performed (the first processing attempt is attempt `0`). -/
structure DlqRecord where
  failureReason : ErrClass
  attemptCount : ℕ
deriving DecidableEq, Repr

/-- Terminal outcome of the failure router for one message. -/
inductive RouterOutcome where
  | success (attempt : ℕ)
  | dlq (r : DlqRecord)
deriving DecidableEq, Repr

/-- Modelled from the spec: the Failure Router loop.  The library
implementation is not shipped in this repository; the docs describe it as
"classify the error via `shouldRetry`; if retryable and
`attempt < maxRetries`, schedule a retry after `backoff(attempt)`;
otherwise emit to the DLQ with `{failureReason, attemptCount}`".
`handler a` is the user handler's result on attempt `a` (`none` =
success).  Returns the terminal outcome, the number of handler
invocations, and the list of scheduled retry delays in order. -/
def routerGo (handler : ℕ → Option ErrClass) (maxRetries attempt : ℕ) :
    RouterOutcome × ℕ × List ℕ :=
  match handler attempt with
  | none => (RouterOutcome.success attempt, 1, [])
  | some e =>
      if h : shouldRetryDefault e = true ∧ attempt < maxRetries then
        let r := routerGo handler maxRetries (attempt + 1)
        (r.1, r.2.1 + 1, retryDelay attempt :: r.2.2)
      else
        (RouterOutcome.dlq ⟨e, attempt⟩, 1, [])
termination_by maxRetries + 1 - attempt
decreasing_by omega

/-- A handler that always raises a transient error is retried all the way
to `maxRetries` and then DLQ'd with `attemptCount = maxRetries`, having
scheduled one backoff delay per retry. -/
lemma routerGo_transient_all (maxRetries : ℕ) :
    ∀ (n a : ℕ), a + n = maxRetries →
    routerGo (fun _ => some ErrClass.transient) maxRetries a =
      (RouterOutcome.dlq ⟨ErrClass.transient, maxRetries⟩, n + 1,
        (List.range' a n).map retryDelay) := by
  intro n
  induction n with
  | zero =>
      intro a ha
      rw [routerGo]
      dsimp only
      rw [dif_neg (by simp [shouldRetryDefault]; omega)]
      simp only [List.range', List.map_nil]
      rw [Nat.add_zero] at ha
      rw [ha]
  | succ n ih =>
      intro a ha
      rw [routerGo]
      dsimp only
      rw [dif_pos ⟨rfl, by omega⟩]
      have := ih (a + 1) (by omega)
      simp only [this, List.range']
      simp

/-- C5: a message whose handler always raises a validation-class error is
DLQ'd after exactly one processing attempt and zero retries
(`attemptCount = 0`); a message whose handler always raises a
transient-class error is retried `maxRetries` times — `maxRetries + 1`
handler invocations, one scheduled backoff per retry — and then DLQ'd with
`failureReason` and `attemptCount = maxRetries` in its headers.  Both
outcomes are terminal values of the router, so the pipeline does not
stall. -/
theorem failure_router_dlq (maxRetries : ℕ) :
    routerGo (fun _ => some ErrClass.validation) maxRetries 0 =
      (RouterOutcome.dlq ⟨ErrClass.validation, 0⟩, 1, []) ∧
    routerGo (fun _ => some ErrClass.transient) maxRetries 0 =
      (RouterOutcome.dlq ⟨ErrClass.transient, maxRetries⟩, maxRetries + 1,
        (List.range maxRetries).map retryDelay) := by
  constructor
  · rw [routerGo]
    dsimp only
    rw [dif_neg (by simp [shouldRetryDefault])]
  · rw [routerGo_transient_all maxRetries maxRetries 0 (by omega),
      List.range_eq_range']

/-- C7: the scheduled retry delay for a retryable failure at
`attempt < maxRetries` is exactly the exponential backoff
`min (base × 2^attempt) maxBackoff` with the documented defaults
`base = 1000`, `maxBackoff = 30000`: the code's `retryDelay` agrees with
the spec formula everywhere, and the first delay scheduled by the router
after such a failure is that value. -/
theorem retry_backoff_formula (attempt maxRetries : ℕ) (h : attempt < maxRetries) :
    retryDelay attempt = backoffSpec 1000 30000 attempt ∧
    retryDelay attempt = min (1000 * 2 ^ attempt) 30000 ∧
    (∀ (e : ErrClass), shouldRetryDefault e = true →
      ∀ handler : ℕ → Option ErrClass, handler attempt = some e →
        (routerGo handler maxRetries attempt).2.2.head? =
          some (min (1000 * 2 ^ attempt) 30000)) := by
  refine ⟨rfl, rfl, ?_⟩
  intro e he handler hh
  rw [routerGo, hh]
  dsimp only
  rw [dif_pos ⟨he, h⟩]
  rfl

/-- Witness for `retry_backoff_formula` at `attempt = 2`,
`maxRetries = 3`. -/
theorem retry_backoff_formula_witness :
    2 < 3 ∧ retryDelay 2 = backoffSpec 1000 30000 2 :=
  ⟨by decide, (retry_backoff_formula 2 3 (by decide)).1⟩

/-! ## Idempotency filter (consumer.md "Idempotent Consumer",
best-practices.md `idempotencyKey`/`idempotencyTtl`) -/

/-- Find the expiry recorded for a key, if any. -/
def lookupEntry : List (ℕ × ℕ) → ℕ → Option ℕ
  | [], _ => none
  | (k, e) :: es, key => if k = key then some e else lookupEntry es key

/-- Modelled from the spec: `shouldProcess(msg) → bool` of the Idempotency
Filter, whose implementation is not shipped in this repository.  The docs
say: look the extracted key up in a map with per-entry expiry; if present
and unexpired, return `false` (duplicate, skipped without invoking user
logic); if absent or expired, insert `{key, now + ttl}` and return
`true`. -/
def shouldProcess (ttl now key : ℕ) (st : List (ℕ × ℕ)) :
    Bool × List (ℕ × ℕ) :=
  match lookupEntry st key with
  | some exp =>
      if now < exp then (false, st) else (true, (key, now + ttl) :: st)
  | none => (true, (key, now + ttl) :: st)

/-- Offer the same key at a sequence of times, threading the filter map and
collecting the decisions (`true` = user handler invoked). -/
def offerTimes (ttl key : ℕ) : List ℕ → List (ℕ × ℕ) → List Bool × List (ℕ × ℕ)
  | [], st => ([], st)
  | t :: ts, st =>
      let p := shouldProcess ttl t key st
      let q := offerTimes ttl key ts p.2
      (p.1 :: q.1, q.2)

/-- While the key is recorded unexpired, every further offer is rejected
and the map is unchanged. -/
lemma offerTimes_dup (ttl key exp : ℕ) :
    ∀ (ts : List ℕ) (st : List (ℕ × ℕ)), lookupEntry st key = some exp →
    (∀ t ∈ ts, t < exp) →
    offerTimes ttl key ts st = (ts.map (fun _ => false), st)
  | [], st, _, _ => by simp [offerTimes]
  | t :: ts, st, hl, hts => by
      have ht : t < exp := hts t (by simp)
      simp only [offerTimes, shouldProcess, hl, if_pos ht]
      rw [offerTimes_dup ttl key exp ts st hl (fun u hu => hts u (by simp [hu]))]
      simp

/-- C2: offering a message with the same idempotency key `N ≥ 1` times,
all within the TTL window of the first offer, invokes the user handler
exactly once: `shouldProcess` answers `true` on the first offer (inserting
`{key, t0 + ttl}`) and `false` on every later offer inside the window, so
the number of `true` decisions is exactly 1. -/
theorem idempotency_exactly_once (ttl key t0 : ℕ) (ts : List ℕ)
    (st0 : List (ℕ × ℕ)) (habs : lookupEntry st0 key = none)
    (hts : ∀ t ∈ ts, t < t0 + ttl) :
    (offerTimes ttl key (t0 :: ts) st0).1 = true :: ts.map (fun _ => false) ∧
    ((offerTimes ttl key (t0 :: ts) st0).1.count true = 1) := by
  have hfirst : shouldProcess ttl t0 key st0 = (true, (key, t0 + ttl) :: st0) := by
    simp [shouldProcess, habs]
  have hlook : lookupEntry ((key, t0 + ttl) :: st0) key = some (t0 + ttl) := by
    simp [lookupEntry]
  have hrest := offerTimes_dup ttl key (t0 + ttl) ts ((key, t0 + ttl) :: st0) hlook hts
  constructor
  · simp only [offerTimes, hfirst, hrest]
  · simp only [offerTimes, hfirst, hrest]
    simp [List.count_cons, List.count_eq_zero]

/-- Witness for `idempotency_exactly_once`: key 7 offered at times
0, 1, 2, 3 with `ttl = 10` into the empty map is processed exactly once. -/
theorem idempotency_exactly_once_witness :
    lookupEntry [] 7 = none ∧ (∀ t ∈ [1, 2, 3], t < 0 + 10) ∧
    (offerTimes 10 7 (0 :: [1, 2, 3]) []).1 =
      true :: [1, 2, 3].map (fun _ => false) :=
  ⟨by decide, by decide,
    (idempotency_exactly_once 10 7 0 [1, 2, 3] [] (by decide) (by decide)).1⟩

/-! ## Key-grouped batch aggregator (consumer.md `batchSize`/`batchTimeout`,
configuration.md batch settings) -/

/-- A broker message, as far as the aggregator and dispatcher care:
its key and its broker arrival position. -/
structure Msg where
  key : ℕ
  offset : ℕ
deriving DecidableEq, Repr

/-- State of the aggregator: the open batch (messages in arrival order),
its opening time, and the batches already emitted downstream. -/
structure AggState where
  current : List Msg
  openedAt : ℕ
  emitted : List (List Msg)
deriving DecidableEq, Repr

/-- Events the aggregator reacts to: a message offered at time `t`, or the
batch timer observed at time `t`. -/
inductive AggEv where
  | offer (m : Msg) (t : ℕ)
  | timer (t : ℕ)
deriving DecidableEq, Repr

/-- Modelled from the spec: the Key-Grouped Batch Aggregator's `offer` and
timer (§4.2); its implementation is not shipped in this repository.  An
offer appends to the open batch and closes it the moment
`messageCount == batchSize`, with no time condition; the timer closes the
batch when `batchTimeout` has elapsed since it opened and it is nonempty.
Closing pushes the batch downstream and immediately opens a new empty
batch. -/
def aggStep (batchSize batchTimeout : ℕ) (s : AggState) : AggEv → AggState
  | AggEv.offer m t =>
      let cur := s.current ++ [m]
      if cur.length = batchSize then
        ⟨[], t, s.emitted ++ [cur]⟩
      else
        ⟨cur, s.openedAt, s.emitted⟩
  | AggEv.timer t =>
      if batchTimeout ≤ t - s.openedAt ∧ s.current ≠ [] then
        ⟨[], t, s.emitted ++ [s.current]⟩
      else
        s

def aggRun (batchSize batchTimeout : ℕ) : AggState → List AggEv → AggState
  | s, [] => s
  | s, e :: es => aggRun batchSize batchTimeout (aggStep batchSize batchTimeout s e) es

def aggInit : AggState := ⟨[], 0, []⟩

/-- The messages offered by an event sequence, in order. -/
def offeredOf (es : List AggEv) : List Msg :=
  es.filterMap fun e =>
    match e with
    | AggEv.offer m _ => some m
    | AggEv.timer _ => none

/-- One aggregator step conserves messages: emitted batches plus the open
batch grow exactly by the offered message. -/
lemma aggStep_conserves (batchSize batchTimeout : ℕ) (s : AggState) (e : AggEv) :
    (aggStep batchSize batchTimeout s e).emitted.flatten ++
        (aggStep batchSize batchTimeout s e).current =
      (s.emitted.flatten ++ s.current) ++ offeredOf [e] := by
  cases e <;> simp only [aggStep, offeredOf, List.filterMap] <;> split <;> simp

lemma aggRun_conserves (batchSize batchTimeout : ℕ) :
    ∀ (es : List AggEv) (s : AggState),
    (aggRun batchSize batchTimeout s es).emitted.flatten ++
        (aggRun batchSize batchTimeout s es).current =
      (s.emitted.flatten ++ s.current) ++ offeredOf es
  | [], s => by simp [aggRun, offeredOf]
  | e :: es, s => by
      simp only [aggRun]
      rw [aggRun_conserves batchSize batchTimeout es _,
        aggStep_conserves batchSize batchTimeout s e]
      cases e <;> simp [offeredOf, List.filterMap_cons, List.append_assoc]

/-- The open batch always stays strictly below `batchSize`. -/
lemma aggRun_current_lt (batchSize batchTimeout : ℕ) (hbs : 1 ≤ batchSize) :
    ∀ (es : List AggEv) (s : AggState), s.current.length < batchSize →
    (aggRun batchSize batchTimeout s es).current.length < batchSize
  | [], _, h => h
  | e :: es, s, h => by
      simp only [aggRun]
      refine aggRun_current_lt batchSize batchTimeout hbs es _ ?_
      cases e <;> simp only [aggStep] <;> split
      · simpa using hbs
      · rename_i m t hne
        simp only [List.length_append, List.length_cons, List.length_nil] at hne ⊢
        omega
      · simpa using hbs
      · exact h

/-- C4: a batch closes exactly when the first of the two triggers fires —
(a) an offer that brings the count to `batchSize` closes it with no
condition on elapsed time, and (b) the timer closes it exactly when
`batchTimeout` has elapsed since it opened and `0 < messageCount`
(`messageCount < batchSize` holds in every reachable state); each close
pushes the batch downstream and immediately opens a new empty batch; and
over every event sequence no message is dropped — the emitted batches plus
the open batch are exactly the offered messages in arrival order. -/
theorem batch_closure (batchSize batchTimeout : ℕ) (hbs : 1 ≤ batchSize)
    (es : List AggEv) :
    ((aggRun batchSize batchTimeout aggInit es).emitted.flatten ++
        (aggRun batchSize batchTimeout aggInit es).current = offeredOf es) ∧
    ((aggRun batchSize batchTimeout aggInit es).current.length < batchSize) ∧
    (∀ (s : AggState) (m : Msg) (t : ℕ),
      ((aggStep batchSize batchTimeout s (AggEv.offer m t)).emitted =
          s.emitted ++ [s.current ++ [m]] ↔ s.current.length + 1 = batchSize) ∧
      (s.current.length + 1 = batchSize →
        (aggStep batchSize batchTimeout s (AggEv.offer m t)).current = [])) ∧
    (∀ (s : AggState) (t : ℕ),
      ((aggStep batchSize batchTimeout s (AggEv.timer t)).emitted =
          s.emitted ++ [s.current] ↔
        (batchTimeout ≤ t - s.openedAt ∧ s.current ≠ [])) ∧
      (batchTimeout ≤ t - s.openedAt → s.current ≠ [] →
        (aggStep batchSize batchTimeout s (AggEv.timer t)).current = [])) := by
  refine ⟨?_, ?_, ?_, ?_⟩
  · have := aggRun_conserves batchSize batchTimeout es aggInit
    simpa [aggInit] using this
  · exact aggRun_current_lt batchSize batchTimeout hbs es aggInit
      (by simpa [aggInit] using hbs)
  · intro s m t
    constructor
    · simp only [aggStep]
      split
      · rename_i hlen
        simp only [List.length_append, List.length_cons, List.length_nil] at hlen
        simp [hlen]
      · rename_i hlen
        simp only [List.length_append, List.length_cons, List.length_nil] at hlen
        constructor
        · intro habs
          have := congrArg List.length habs
          simp at this
        · intro h; omega
    · intro h
      simp only [aggStep]
      rw [if_pos (by simpa using h)]
  · intro s t
    constructor
    · simp only [aggStep]
      split
      · rename_i h; simp [h]
      · rename_i h
        constructor
        · intro habs
          have := congrArg List.length habs
          simp at this
        · intro hc; exact absurd hc h
    · intro h1 h2
      simp only [aggStep]
      rw [if_pos ⟨h1, h2⟩]

/-- Witness for `batch_closure` at `batchSize = 3`, `batchTimeout = 1000`,
with three offers arriving before the timeout: the batch closes on the
third offer and nothing is dropped. -/
theorem batch_closure_witness :
    (1 : ℕ) ≤ 3 ∧
    ((aggRun 3 1000 aggInit
        [AggEv.offer ⟨0, 0⟩ 10, AggEv.offer ⟨0, 1⟩ 20,
          AggEv.offer ⟨1, 2⟩ 30]).emitted.flatten ++
      (aggRun 3 1000 aggInit
        [AggEv.offer ⟨0, 0⟩ 10, AggEv.offer ⟨0, 1⟩ 20,
          AggEv.offer ⟨1, 2⟩ 30]).current =
      offeredOf [AggEv.offer ⟨0, 0⟩ 10, AggEv.offer ⟨0, 1⟩ 20,
        AggEv.offer ⟨1, 2⟩ 30]) :=
  ⟨by decide,
    (batch_closure 3 1000 (by decide)
      [AggEv.offer ⟨0, 0⟩ 10, AggEv.offer ⟨0, 1⟩ 20,
        AggEv.offer ⟨1, 2⟩ 30]).1⟩

/-! ## Concurrency limiter & dispatcher (consumer.md key-grouped batch
processing, best-practices.md `groupByKey`) -/

/-- State of the dispatcher over one batch: the per-key queues of not yet
started messages (in broker arrival order, as produced by `groupByKey`),
and the set of in-flight `(key, message)` pairs. -/
structure DState where
  pending : ℕ → List Msg
  active : List (ℕ × Msg)

/-- Observable dispatch events: a message starts processing, a message
reaches its terminal outcome (`ok = true` success, `ok = false` hand-off
to the Failure Router), or the batch's offsets are committed. -/
inductive DEv where
  | start (k : ℕ) (m : Msg)
  | finish (k : ℕ) (m : Msg) (ok : Bool)
  | commit
deriving DecidableEq, Repr

/-- Modelled from the spec: the Concurrency Limiter & Dispatcher (§4.4);
its implementation is not shipped in this repository.  A KeyGroup's next
message may start only when no message of that key is in flight and fewer
than `maxConcurrency` messages are in flight overall; a finish resolves an
in-flight message; offsets commit only when every message of the batch has
reached a terminal state. -/
inductive DStep (maxConcurrency : ℕ) : DState → DEv → DState → Prop
  | start (s : DState) (k : ℕ) (m : Msg) (rest : List Msg)
      (hq : s.pending k = m :: rest)
      (hk : ∀ m', (k, m') ∉ s.active)
      (hc : s.active.length < maxConcurrency) :
      DStep maxConcurrency s (DEv.start k m)
        ⟨Function.update s.pending k rest, (k, m) :: s.active⟩
  | finish (s : DState) (k : ℕ) (m : Msg) (ok : Bool) (l1 l2 : List (ℕ × Msg))
      (ha : s.active = l1 ++ (k, m) :: l2) :
      DStep maxConcurrency s (DEv.finish k m ok) ⟨s.pending, l1 ++ l2⟩
  | commit (s : DState)
      (hp : ∀ k, s.pending k = [])
      (ha : s.active = []) :
      DStep maxConcurrency s DEv.commit s

/-- An execution: a sequence of dispatch steps. -/
inductive DExec (maxConcurrency : ℕ) : DState → List DEv → DState → Prop
  | nil (s : DState) : DExec maxConcurrency s [] s
  | cons {s s' s'' : DState} {e : DEv} {tr : List DEv} :
      DStep maxConcurrency s e s' → DExec maxConcurrency s' tr s'' →
      DExec maxConcurrency s (e :: tr) s''

/-- Messages of key `k` started so far, in start order. -/
def startsOf (k : ℕ) : List DEv → List Msg
  | [] => []
  | DEv.start k' m :: tr =>
      if k' = k then m :: startsOf k tr else startsOf k tr
  | DEv.finish _ _ _ :: tr => startsOf k tr
  | DEv.commit :: tr => startsOf k tr

/-- Messages of key `k` finished so far, in finish order. -/
def finishesOf (k : ℕ) : List DEv → List Msg
  | [] => []
  | DEv.finish k' m _ :: tr =>
      if k' = k then m :: finishesOf k tr else finishesOf k tr
  | DEv.start _ _ :: tr => finishesOf k tr
  | DEv.commit :: tr => finishesOf k tr

/-- The in-flight messages of key `k`. -/
def activeMsgs (k : ℕ) (act : List (ℕ × Msg)) : List Msg :=
  (act.filter fun p => p.1 = k).map Prod.snd

lemma startsOf_append (k : ℕ) (t1 t2 : List DEv) :
    startsOf k (t1 ++ t2) = startsOf k t1 ++ startsOf k t2 := by
  induction t1 with
  | nil => simp [startsOf]
  | cons e t1 ih =>
      cases e <;> simp only [List.cons_append, startsOf] <;>
        (try split) <;> simp [ih]

lemma finishesOf_append (k : ℕ) (t1 t2 : List DEv) :
    finishesOf k (t1 ++ t2) = finishesOf k t1 ++ finishesOf k t2 := by
  induction t1 with
  | nil => simp [finishesOf]
  | cons e t1 ih =>
      cases e <;> simp only [List.cons_append, finishesOf] <;>
        (try split) <;> simp [ih]

lemma activeMsgs_nil_of_not_mem (k : ℕ) (act : List (ℕ × Msg))
    (h : ∀ m', (k, m') ∉ act) : activeMsgs k act = [] := by
  induction act with
  | nil => rfl
  | cons p act ih =>
      obtain ⟨k', m'⟩ := p
      have hne : k' ≠ k := by
        intro hk
        exact h m' (by simp [hk])
      simp only [activeMsgs, List.filter_cons]
      rw [if_neg (by simpa using hne)]
      exact ih fun m' hm => h m' (by simp [hm])

lemma activeMsgs_append (k : ℕ) (a1 a2 : List (ℕ × Msg)) :
    activeMsgs k (a1 ++ a2) = activeMsgs k a1 ++ activeMsgs k a2 := by
  simp [activeMsgs, List.filter_append]

lemma activeMsgs_cons_same (k : ℕ) (m : Msg) (act : List (ℕ × Msg)) :
    activeMsgs k ((k, m) :: act) = m :: activeMsgs k act := by
  simp [activeMsgs, List.filter_cons]

lemma activeMsgs_cons_other (k k' : ℕ) (m : Msg) (act : List (ℕ × Msg))
    (h : k ≠ k') : activeMsgs k' ((k, m) :: act) = activeMsgs k' act := by
  simp [activeMsgs, List.filter_cons, h]

lemma not_mem_of_fst_not_mem (k : ℕ) (act : List (ℕ × Msg))
    (h : k ∉ act.map Prod.fst) : ∀ m', (k, m') ∉ act := by
  intro m' hm
  exact h (List.mem_map_of_mem Prod.fst hm)

lemma mem_finishesOf (k : ℕ) (m : Msg) :
    ∀ tr : List DEv, m ∈ finishesOf k tr → ∃ ok, DEv.finish k m ok ∈ tr := by
  intro tr
  induction tr with
  | nil => intro h; simp [finishesOf] at h
  | cons e tr ih =>
      intro h
      cases e with
      | start k' m' =>
          obtain ⟨ok, hok⟩ := ih (by simpa [finishesOf] using h)
          exact ⟨ok, by simp [hok]⟩
      | commit =>
          obtain ⟨ok, hok⟩ := ih (by simpa [finishesOf] using h)
          exact ⟨ok, by simp [hok]⟩
      | finish k' m' ok' =>
          simp only [finishesOf] at h
          by_cases hk : k' = k
          · rw [if_pos hk] at h
            rcases List.mem_cons.mp h with hm | hm
            · exact ⟨ok', by simp [hk, hm]⟩
            · obtain ⟨ok, hok⟩ := ih hm
              exact ⟨ok, by simp [hok]⟩
          · rw [if_neg hk] at h
            obtain ⟨ok, hok⟩ := ih h
            exact ⟨ok, by simp [hok]⟩

/-- In a duplicate-free list, the split at a given element is unique. -/
lemma nodup_split_unique {α : Type} :
    ∀ (s1 s2 r1 r2 : List α) (x : α), (s1 ++ x :: r1).Nodup →
    s1 ++ x :: r1 = s2 ++ x :: r2 → s1 = s2 ∧ r1 = r2 := by
  intro s1
  induction s1 with
  | nil =>
      intro s2 r1 r2 x hnd heq
      cases s2 with
      | nil => simpa using heq
      | cons y s2 =>
          simp only [List.nil_append, List.cons_append, List.cons.injEq] at heq
          obtain ⟨rfl, heq⟩ := heq
          have : x ∈ r1 := by
            rw [heq]
            exact List.mem_append.mpr (Or.inr (by simp))
          simp only [List.nil_append, List.nodup_cons] at hnd
          exact absurd this hnd.1
  | cons a s1 ih =>
      intro s2 r1 r2 x hnd heq
      cases s2 with
      | nil =>
          simp only [List.cons_append, List.nil_append, List.cons.injEq] at heq
          obtain ⟨rfl, heq⟩ := heq
          simp only [List.cons_append, List.nodup_cons] at hnd
          exact absurd (List.mem_append.mpr (Or.inr (by simp))) hnd.1
      | cons b s2 =>
          simp only [List.cons_append, List.cons.injEq] at heq
          obtain ⟨rfl, heq⟩ := heq
          obtain ⟨h1, h2⟩ := ih s2 r1 r2 x
            (by rw [List.cons_append] at hnd; exact hnd.of_cons) heq
          exact ⟨by rw [h1], h2⟩

/-- The dispatch invariant tying the initial per-key queues `q0`, the
trace so far and the current state: each key's queue is consumed in order
by its starts; each key's starts are its finishes followed by its (at most
one) in-flight message; in-flight keys are pairwise distinct; and at most
`maxConcurrency` messages are in flight. -/
structure DInv (maxConcurrency : ℕ) (q0 : ℕ → List Msg) (tr : List DEv)
    (s : DState) : Prop where
  queue : ∀ k, q0 k = startsOf k tr ++ s.pending k
  flight : ∀ k, startsOf k tr = finishesOf k tr ++ activeMsgs k s.active
  keysNodup : (s.active.map Prod.fst).Nodup
  bound : s.active.length ≤ maxConcurrency

lemma DStep_inv {maxConcurrency : ℕ} {q0 : ℕ → List Msg} {tr : List DEv}
    {s s' : DState} {e : DEv} (hstep : DStep maxConcurrency s e s')
    (hinv : DInv maxConcurrency q0 tr s) :
    DInv maxConcurrency q0 (tr ++ [e]) s' := by
  cases hstep with
  | start k m rest hq hk hc =>
      have hknotin : k ∉ s.active.map Prod.fst := by
        intro hmem
        obtain ⟨p, hp, hfst⟩ := List.mem_map.mp hmem
        obtain ⟨pk, pm⟩ := p
        cases hfst
        exact hk pm hp
      refine ⟨?_, ?_, ?_, ?_⟩
      · intro k'
        rw [startsOf_append]
        by_cases hkk : k = k'
        · subst hkk
          simp only [startsOf, if_pos rfl, Function.update_same]
          rw [List.append_assoc]
          simpa [hq] using hinv.queue k
        · simp only [startsOf, if_neg hkk]
          rw [Function.update_noteq (Ne.symm hkk)]
          simpa using hinv.queue k'
      · intro k'
        rw [startsOf_append, finishesOf_append]
        by_cases hkk : k = k'
        · subst hkk
          have hae : activeMsgs k s.active = [] :=
            activeMsgs_nil_of_not_mem k s.active hk
          have hfl := hinv.flight k
          rw [hae, List.append_nil] at hfl
          rw [activeMsgs_cons_same, hae]
          simp [startsOf, finishesOf, hfl]
        · have hfl := hinv.flight k'
          rw [activeMsgs_cons_other k k' m s.active hkk]
          simp [startsOf, finishesOf, hkk, hfl]
      · simp only [List.map_cons, List.nodup_cons]
        exact ⟨hknotin, hinv.keysNodup⟩
      · simpa using hc
  | finish k m ok l1 l2 ha =>
      have hnd := hinv.keysNodup
      rw [ha] at hnd
      simp only [List.map_append, List.map_cons] at hnd
      obtain ⟨hnd1, hnd2, hdisj⟩ := List.nodup_append.mp hnd
      have hkl2 : k ∉ l2.map Prod.fst := (List.nodup_cons.mp hnd2).1
      have hkl1 : k ∉ l1.map Prod.fst := fun hmem => hdisj hmem (by simp)
      have hal1 : activeMsgs k l1 = [] :=
        activeMsgs_nil_of_not_mem k l1 (not_mem_of_fst_not_mem k l1 hkl1)
      have hal2 : activeMsgs k l2 = [] :=
        activeMsgs_nil_of_not_mem k l2 (not_mem_of_fst_not_mem k l2 hkl2)
      refine ⟨?_, ?_, ?_, ?_⟩
      · intro k'
        rw [startsOf_append]
        simp only [startsOf]
        simpa using hinv.queue k'
      · intro k'
        rw [startsOf_append, finishesOf_append]
        by_cases hkk : k = k'
        · subst hkk
          have hfl := hinv.flight k
          rw [ha, activeMsgs_append, activeMsgs_cons_same, hal1, hal2] at hfl
          simp only [List.nil_append] at hfl
          show startsOf k tr ++ startsOf k [DEv.finish k m ok] =
            (finishesOf k tr ++ finishesOf k [DEv.finish k m ok]) ++
              activeMsgs k (l1 ++ l2)
          rw [activeMsgs_append, hal1, hal2]
          simp [startsOf, finishesOf, hfl]
        · have hfl := hinv.flight k'
          rw [ha, activeMsgs_append, activeMsgs_cons_other k k' m l2 hkk] at hfl
          show startsOf k' tr ++ startsOf k' [DEv.finish k m ok] =
            (finishesOf k' tr ++ finishesOf k' [DEv.finish k m ok]) ++
              activeMsgs k' (l1 ++ l2)
          rw [activeMsgs_append]
          simp [startsOf, finishesOf, hkk, hfl]
      · have hsub : List.Sublist ((l1 ++ l2).map Prod.fst)
            ((l1 ++ (k, m) :: l2).map Prod.fst) := by
          simp only [List.map_append, List.map_cons]
          exact (List.sublist_cons_self k (l2.map Prod.fst)).append_left _
        have hnd' := hinv.keysNodup
        rw [ha] at hnd'
        exact List.Nodup.sublist hsub hnd'
      · have hb := hinv.bound
        rw [ha] at hb
        show (l1 ++ l2).length ≤ maxConcurrency
        simp only [List.length_append, List.length_cons] at hb ⊢
        omega
  | commit hp ha =>
      refine ⟨?_, ?_, hinv.keysNodup, hinv.bound⟩
      · intro k'
        rw [startsOf_append]
        simp only [startsOf]
        simpa using hinv.queue k'
      · intro k'
        rw [startsOf_append, finishesOf_append]
        simp only [startsOf, finishesOf]
        simpa using hinv.flight k'

lemma DExec_append_split {maxConcurrency : ℕ} :
    ∀ (t1 t2 : List DEv) (s0 s : DState),
    DExec maxConcurrency s0 (t1 ++ t2) s →
    ∃ sm, DExec maxConcurrency s0 t1 sm ∧ DExec maxConcurrency sm t2 s := by
  intro t1
  induction t1 with
  | nil => intro t2 s0 s h; exact ⟨s0, DExec.nil s0, h⟩
  | cons e t1 ih =>
      intro t2 s0 s h
      cases h with
      | cons hstep hrest =>
          obtain ⟨sm, h1, h2⟩ := ih t2 _ s hrest
          exact ⟨sm, DExec.cons hstep h1, h2⟩

lemma DExec_singleton {maxConcurrency : ℕ} {s s' : DState} {e : DEv}
    (h : DExec maxConcurrency s [e] s') : DStep maxConcurrency s e s' := by
  cases h with
  | cons hstep hrest => cases hrest; exact hstep

lemma DExec_inv (maxConcurrency : ℕ) (s0 : DState) (h0 : s0.active = []) :
    ∀ (tr : List DEv) (s : DState), DExec maxConcurrency s0 tr s →
    DInv maxConcurrency s0.pending tr s := by
  intro tr
  induction tr using List.reverseRecOn with
  | nil =>
      intro s h
      cases h
      exact ⟨fun k => by simp [startsOf],
        fun k => by simp [startsOf, finishesOf, h0, activeMsgs],
        by rw [h0]; simp, by rw [h0]; simp⟩
  | append_singleton t e ih =>
      intro s h
      obtain ⟨sm, h1, h2⟩ := DExec_append_split t [e] s0 s h
      exact DStep_inv (DExec_singleton h2) (ih sm h1)

lemma DStep_start_inv {maxConcurrency : ℕ} {s s' : DState} {k : ℕ} {m : Msg}
    (h : DStep maxConcurrency s (DEv.start k m) s') :
    (∃ rest, s.pending k = m :: rest) ∧ (∀ m', (k, m') ∉ s.active) ∧
      s.active.length < maxConcurrency := by
  cases h
  rename_i rest hc hk hq
  exact ⟨⟨rest, hq⟩, hk, hc⟩

lemma DStep_commit_inv {maxConcurrency : ℕ} {s s' : DState}
    (h : DStep maxConcurrency s DEv.commit s') :
    (∀ k, s.pending k = []) ∧ s.active = [] := by
  cases h
  rename_i hp ha
  exact ⟨hp, ha⟩

/-- C1: per-key ordering under bounded parallel dispatch.  If `m1` precedes
`m2` in the broker arrival order of key `k`'s queue (duplicate-free), then
in every execution, at the point where `m2` begins processing, `m1` has
already reached its terminal outcome (a `finish` event for `m1` occurs
earlier in the trace); moreover at most `maxConcurrency` messages are ever
in flight and the in-flight keys are pairwise distinct, so distinct
KeyGroups run in parallel up to `maxConcurrency` while each KeyGroup is
strictly sequential. -/
theorem key_ordering (maxConcurrency : ℕ) (s0 : DState) (h0 : s0.active = [])
    (k : ℕ) (m1 m2 : Msg) (a b c : List Msg)
    (hq : s0.pending k = a ++ m1 :: b ++ m2 :: c)
    (hnd : (s0.pending k).Nodup)
    (tr1 tr2 : List DEv) (s : DState)
    (hex : DExec maxConcurrency s0 (tr1 ++ DEv.start k m2 :: tr2) s) :
    (∃ ok, DEv.finish k m1 ok ∈ tr1) ∧
    s.active.length ≤ maxConcurrency ∧
    (s.active.map Prod.fst).Nodup := by
  have hinvs := DExec_inv maxConcurrency s0 h0 _ s hex
  obtain ⟨sm, h1, h2⟩ := DExec_append_split tr1 _ s0 s hex
  refine ⟨?_, hinvs.bound, hinvs.keysNodup⟩
  cases h2 with
  | cons hstep hrest =>
    obtain ⟨⟨rest, hq2⟩, hk, hc⟩ := DStep_start_inv hstep
    have hinv := DExec_inv maxConcurrency s0 h0 tr1 sm h1
    have hqk := hinv.queue k
    rw [hq2] at hqk
    have hsplit : startsOf k tr1 = a ++ m1 :: b ∧ rest = c := by
      refine nodup_split_unique (startsOf k tr1) (a ++ m1 :: b) rest c m2
        ?_ ?_
      · rw [← hqk]
        exact hnd
      · rw [← hqk, hq]
    have hm1 : m1 ∈ startsOf k tr1 := by
      rw [hsplit.1]
      exact List.mem_append.mpr (Or.inr (by simp))
    have hfl := hinv.flight k
    rw [activeMsgs_nil_of_not_mem k sm.active hk, List.append_nil] at hfl
    rw [hfl] at hm1
    exact mem_finishesOf k m1 tr1 hm1

/-- Witness for `key_ordering`: two keys, `maxConcurrency = 2`; key 0's
second message starts only after its first has finished, while key 1 runs
in parallel. -/
theorem key_ordering_witness :
    ∃ ok, DEv.finish 0 (⟨0, 0⟩ : Msg) ok ∈
      [DEv.start 0 ⟨0, 0⟩, DEv.start 1 ⟨1, 2⟩, DEv.finish 0 ⟨0, 0⟩ true] := by
  have hex : DExec 2
      ⟨fun k => if k = 0 then [⟨0, 0⟩, ⟨0, 1⟩] else if k = 1 then [⟨1, 2⟩] else [],
        []⟩
      ([DEv.start 0 ⟨0, 0⟩, DEv.start 1 ⟨1, 2⟩, DEv.finish 0 ⟨0, 0⟩ true] ++
        DEv.start 0 ⟨0, 1⟩ :: [])
      ⟨Function.update (Function.update
          (Function.update
            (fun k => if k = 0 then [⟨0, 0⟩, ⟨0, 1⟩]
              else if k = 1 then [⟨1, 2⟩] else []) 0 [⟨0, 1⟩]) 1 []) 0 [],
        (0, ⟨0, 1⟩) :: ([(1, ⟨1, 2⟩)] ++ [])⟩ := by
    refine DExec.cons (DStep.start _ 0 ⟨0, 0⟩ [⟨0, 1⟩] (by decide)
      (by intro m'; simp) (by decide)) ?_
    refine DExec.cons (DStep.start _ 1 ⟨1, 2⟩ [] (by decide)
      (by intro m'; simp) (by decide)) ?_
    refine DExec.cons (DStep.finish _ 0 ⟨0, 0⟩ true [(1, ⟨1, 2⟩)] []
      (by decide)) ?_
    refine DExec.cons (DStep.start _ 0 ⟨0, 1⟩ [] (by decide)
      (by intro m'; simp) (by decide)) ?_
    exact DExec.nil _
  exact (key_ordering 2 _ rfl 0 ⟨0, 0⟩ ⟨0, 1⟩ [] [] [] (by decide) (by decide)
    [DEv.start 0 ⟨0, 0⟩, DEv.start 1 ⟨1, 2⟩, DEv.finish 0 ⟨0, 0⟩ true] []
    _ hex).1

/-- C8: offsets commit only after every message of the batch is terminal.
In every execution whose trace contains a `commit`, every message of every
KeyGroup of the batch has a `finish` event strictly before the commit —
commits are never issued for partially-processed batches. -/
theorem commit_after_terminal (maxConcurrency : ℕ) (s0 : DState)
    (h0 : s0.active = []) (tr1 tr2 : List DEv) (s : DState)
    (hex : DExec maxConcurrency s0 (tr1 ++ DEv.commit :: tr2) s)
    (k : ℕ) (m : Msg) (hm : m ∈ s0.pending k) :
    ∃ ok, DEv.finish k m ok ∈ tr1 := by
  obtain ⟨sm, h1, h2⟩ := DExec_append_split tr1 _ s0 s hex
  cases h2 with
  | cons hstep hrest =>
    obtain ⟨hp, ha⟩ := DStep_commit_inv hstep
    have hinv := DExec_inv maxConcurrency s0 h0 tr1 sm h1
    have hq := hinv.queue k
    rw [hp k, List.append_nil] at hq
    have hfl := hinv.flight k
    rw [ha] at hfl
    simp only [activeMsgs, List.filter_nil, List.map_nil,
      List.append_nil] at hfl
    rw [hq, hfl] at hm
    exact mem_finishesOf k m tr1 hm

/-- Witness for `commit_after_terminal`: a one-message batch whose commit
is preceded by that message's finish. -/
theorem commit_after_terminal_witness :
    ∃ ok, DEv.finish 0 (⟨0, 0⟩ : Msg) ok ∈
      [DEv.start 0 ⟨0, 0⟩, DEv.finish 0 ⟨0, 0⟩ true] := by
  have hex : DExec 1
      ⟨fun k => if k = 0 then [⟨0, 0⟩] else [], []⟩
      ([DEv.start 0 ⟨0, 0⟩, DEv.finish 0 ⟨0, 0⟩ true] ++ DEv.commit :: [])
      ⟨Function.update (fun k => if k = 0 then [⟨0, 0⟩] else []) 0 [],
        ([] : List (ℕ × Msg)) ++ []⟩ := by
    refine DExec.cons (DStep.start _ 0 ⟨0, 0⟩ [] (by decide)
      (by intro m'; simp) (by decide)) ?_
    refine DExec.cons (DStep.finish _ 0 ⟨0, 0⟩ true [] [] (by decide)) ?_
    refine DExec.cons (DStep.commit _ ?_ (by decide)) (DExec.nil _)
    intro k
    by_cases hk : k = 0 <;> simp [Function.update, hk]
  exact commit_after_terminal 1 _ rfl
    [DEv.start 0 ⟨0, 0⟩, DEv.finish 0 ⟨0, 0⟩ true] [] _ hex 0 ⟨0, 0⟩
    (by decide)

end KafkaClient
